import Mathlib

/-!
Shallow embedding of the two core subsystems of the `tgbot_Le` repository:

* `app/services/price_parser.py` — `PriceParser.parse`, `_evaluate_expression`,
  `_safe_eval`, together with the three regular-expression patterns that
  `parse` tries per keyword.  Text is modelled as `List Char`.  The specific
  regexes of the source are embedded as dedicated matching functions that
  reproduce Python `re.search` semantics (leftmost match; greedy `\s*` tried
  longest-first; the non-greedy group tried shortest-first).  `\d` and `\s`
  are modelled as ASCII digits and ASCII whitespace (the source compiles the
  patterns with `re.UNICODE`, but no claim involves non-ASCII digits or
  exotic whitespace).
* `app/utils/concurrency.py` — `RateLimiter.is_allowed` (one key's deque of
  timestamps; the source keeps an independent deque per key) and
  `MessageQueue.put` / `MessageQueue._worker` (the queue's counters and
  buffer; a worker iteration is modelled as one atomic step since the claims
  are about sequential histories).

Python `float` values are modelled as exact fractions (`PyNum`): every
arithmetic step appearing in the claims is exactly representable in binary
floating point, so the exact model agrees with the source on those inputs.
Python `decimal.Decimal` values are modelled as mantissa/exponent pairs
(`PyDecimal`), which is the representation `Decimal` itself uses; the
`quantize(Decimal("0.01"))` call of the source becomes `quantize2`
(round-half-even to exponent -2, `Decimal`'s default rounding).
-/

namespace TgbotLe

/-- ASCII whitespace, the characters Python's `str.strip` and (for the inputs
relevant here) the regex class `\s` treat as whitespace. -/
def isWs (c : Char) : Bool :=
  c = ' ' || c = '\t' || c = '\n' || c = '\r' || c = '\x0b' || c = '\x0c'

/-- Python `str.strip()`: drop leading and trailing whitespace. -/
def listStrip (s : List Char) : List Char :=
  ((s.dropWhile isWs).reverse.dropWhile isWs).reverse

/-- Numeric value of a list of ASCII digits (most significant first). -/
def natOfDigits (l : List Char) : Nat :=
  l.foldl (fun n c => 10 * n + (c.toNat - '0'.toNat)) 0

/-- Index of the last occurrence of `c` in `s` (Python `str.rfind`, as an
`Option` instead of `-1`). -/
def rfindPos (c : Char) : List Char → Option Nat
  | [] => none
  | a :: t =>
    match rfindPos c t with
    | some p => some (p + 1)
    | none => if a = c then some 0 else none

/-- Index of the first occurrence of `c` in `s` at or after index `i`
(Python `str.find(c, i)`, as an `Option`). -/
def findIdxFrom (c : Char) (s : List Char) (i : Nat) : Option Nat :=
  ((s.drop i).findIdx? (fun a => a = c)).map (fun j => j + i)

/-- Exact value of a Python `float` as an unreduced fraction `num / den`
(`den` is kept positive by every operation below).  All intermediate values
arising in the claims are decimal fractions exactly representable in binary
floating point, where this model and IEEE-754 arithmetic coincide. -/
structure PyNum where
  num : Int
  den : Int
deriving DecidableEq, Repr

def PyNum.add (a b : PyNum) : PyNum := ⟨a.num * b.den + b.num * a.den, a.den * b.den⟩

def PyNum.sub (a b : PyNum) : PyNum := ⟨a.num * b.den - b.num * a.den, a.den * b.den⟩

def PyNum.mul (a b : PyNum) : PyNum := ⟨a.num * b.num, a.den * b.den⟩

def PyNum.div (a b : PyNum) : PyNum :=
  let n := a.num * b.den
  let d := a.den * b.num
  if d < 0 then ⟨-n, -d⟩ else ⟨n, d⟩

/-- Python `decimal.Decimal`: an exact base-10 value `mant * 10 ^ exp`.
`Decimal` tracks the exponent of the representation, which is what the
spec's "number of fractional digits" refers to (`Decimal("186")` has
exponent 0, `Decimal("186.00")` has exponent -2). -/
structure PyDecimal where
  mant : Int
  exp : Int
deriving DecidableEq, Repr

/-- Rational value of a `PyDecimal`, used only in theorem statements. -/
def PyDecimal.val (d : PyDecimal) : ℚ := (d.mant : ℚ) * 10 ^ d.exp

/-- Round `n / d` (`d > 0`) to the nearest integer, ties to even —
`decimal`'s default `ROUND_HALF_EVEN`. -/
def roundHalfEvenDiv (n d : Int) : Int :=
  let q := Int.fdiv n d
  let r := n - q * d
  if 2 * r < d then q
  else if d < 2 * r then q + 1
  else if q % 2 = 0 then q else q + 1

/-- Models `Decimal(str(result)).quantize(Decimal("0.01"))` from
`_evaluate_expression`: commit the exact result to two fractional digits
with round-half-even.  (`str` of a float is its shortest round-tripping
decimal; for the exactly-representable values the claims exercise it is the
exact value, so quantizing the exact fraction is faithful.) -/
def quantize2 (v : PyNum) : PyDecimal := ⟨roundHalfEvenDiv (v.num * 100) v.den, -2⟩

/-- Models Python `float(s)` on the residual tokens `_safe_eval` reaches:
an optional sign, then digits with at most one decimal point (at least one
digit overall).  Forms `float` also accepts (exponents, `inf`, `nan`,
underscores, surrounding whitespace) cannot reach this call: the expression
has passed the `^[\d+\-*/.()]+$` filter and had its spaces removed. -/
def pyFloat (s : List Char) : Option PyNum :=
  let p := match s with
    | '+' :: r => ((1 : Int), r)
    | '-' :: r => ((-1 : Int), r)
    | r => ((1 : Int), r)
  let d1 := p.2.takeWhile Char.isDigit
  let r1 := p.2.drop d1.length
  match r1 with
  | [] => if d1.isEmpty then none else some ⟨p.1 * natOfDigits d1, 1⟩
  | '.' :: u =>
    let d2 := u.takeWhile Char.isDigit
    if u.length = d2.length && !(d1.isEmpty && d2.isEmpty) then
      some ⟨p.1 * natOfDigits (d1 ++ d2), (10 : Int) ^ d2.length⟩
    else none
  | _ => none

/-- The additive-split search of `_safe_eval` step 2, `-` half: the last
`-` qualifies only at a position greater than 0 (a leading `-` is a unary
sign). -/
def addSplitMinus (s : List Char) : Option (Char × Nat) :=
  match rfindPos '-' s with
  | some p => if 0 < p then some ('-', p) else none
  | none => none

/-- The additive-split search of `_safe_eval` step 2: the last `+` at a
position greater than 0, otherwise the last `-` at a position greater
than 0 (the source iterates `for op in ["+", "-"]` and splits at the first
`rfind` hit with `pos > 0`). -/
def addSplitPos (s : List Char) : Option (Char × Nat) :=
  match rfindPos '+' s with
  | some p => if 0 < p then some ('+', p) else addSplitMinus s
  | none => addSplitMinus s

/-- The multiplicative-split search of `_safe_eval` step 3, `/` half. -/
def mulSplitDiv (s : List Char) : Option (Char × Nat) :=
  match rfindPos '/' s with
  | some p => if 0 < p then some ('/', p) else none
  | none => none

/-- The multiplicative-split search of `_safe_eval` step 3: the last `*`
at a position greater than 0, otherwise the last `/`. -/
def mulSplitPos (s : List Char) : Option (Char × Nat) :=
  match rfindPos '*' s with
  | some p => if 0 < p then some ('*', p) else mulSplitDiv s
  | none => mulSplitDiv s

/-- Combine the recursively evaluated halves of a split: `None` on either
side propagates, and `/` returns `None` when the right value is zero
(`if right_val == 0: return None`). -/
def binCombine (op : Char) (a b : Option PyNum) : Option PyNum :=
  match a, b with
  | some x, some y =>
    if op = '+' then some (x.add y)
    else if op = '-' then some (x.sub y)
    else if op = '*' then some (x.mul y)
    else if y.num = 0 then none else some (x.div y)
  | _, _ => none

theorem rfindPos_lt {c : Char} : ∀ {s : List Char} {p : Nat}, rfindPos c s = some p → p < s.length := by
  intro s
  induction s with
  | nil => intro p h; simp [rfindPos] at h
  | cons a t ih =>
    intro p h
    simp only [rfindPos] at h
    cases ht : rfindPos c t with
    | some q =>
      rw [ht] at h
      cases h
      have := ih ht
      simp only [List.length_cons]
      omega
    | none =>
      rw [ht] at h
      by_cases hac : a = c
      · simp [hac] at h
        cases h
        simp
      · simp [hac] at h

theorem addSplitPos_bounds {s : List Char} {op : Char} {p : Nat}
    (h : addSplitPos s = some (op, p)) : 0 < p ∧ p < s.length := by
  unfold addSplitPos addSplitMinus at h
  rcases hplus : rfindPos '+' s with _ | q <;> rw [hplus] at h
  · rcases hminus : rfindPos '-' s with _ | q <;> rw [hminus] at h
    · exact absurd h (by simp)
    · by_cases hq : 0 < q
      · simp [hq] at h
        exact ⟨h.2 ▸ hq, h.2 ▸ rfindPos_lt hminus⟩
      · simp [hq] at h
  · by_cases hq : 0 < q
    · simp [hq] at h
      exact ⟨h.2 ▸ hq, h.2 ▸ rfindPos_lt hplus⟩
    · simp [hq] at h
      rcases hminus : rfindPos '-' s with _ | r <;> rw [hminus] at h
      · exact absurd h (by simp)
      · by_cases hr : 0 < r
        · simp [hr] at h
          exact ⟨h.2 ▸ hr, h.2 ▸ rfindPos_lt hminus⟩
        · simp [hr] at h

theorem mulSplitPos_bounds {s : List Char} {op : Char} {p : Nat}
    (h : mulSplitPos s = some (op, p)) : 0 < p ∧ p < s.length := by
  unfold mulSplitPos mulSplitDiv at h
  rcases hstar : rfindPos '*' s with _ | q <;> rw [hstar] at h
  · rcases hdiv : rfindPos '/' s with _ | q <;> rw [hdiv] at h
    · exact absurd h (by simp)
    · by_cases hq : 0 < q
      · simp [hq] at h
        exact ⟨h.2 ▸ hq, h.2 ▸ rfindPos_lt hdiv⟩
      · simp [hq] at h
  · by_cases hq : 0 < q
    · simp [hq] at h
      exact ⟨h.2 ▸ hq, h.2 ▸ rfindPos_lt hstar⟩
    · simp [hq] at h
      rcases hdiv : rfindPos '/' s with _ | r <;> rw [hdiv] at h
      · exact absurd h (by simp)
      · by_cases hr : 0 < r
        · simp [hr] at h
          exact ⟨h.2 ▸ hr, h.2 ▸ rfindPos_lt hdiv⟩
        · simp [hr] at h

/-- Steps 2–4 of `_safe_eval` on a parenthesis-free, space-free string:
split at the last qualifying `+`/`-`, else at the last qualifying `*`/`/`,
else parse the residual numeric literal.  The recursive calls of the source
go through the whole `_safe_eval`, but on the halves its space removal and
parenthesis pass are no-ops, so recursing here directly is faithful.
`fuel` makes the recursion structural; every recursive call is on a strictly
shorter list, so `fuel = s.length` never runs out (see `evalFlatF_congr`). -/
def evalFlatF : Nat → List Char → Option PyNum
  | 0, _ => none
  | n + 1, s =>
    if s.isEmpty then none
    else
      match addSplitPos s with
      | some (op, p) => binCombine op (evalFlatF n (s.take p)) (evalFlatF n (s.drop (p + 1)))
      | none =>
        match mulSplitPos s with
        | some (op, p) => binCombine op (evalFlatF n (s.take p)) (evalFlatF n (s.drop (p + 1)))
        | none => pyFloat s

theorem evalFlatF_nil : ∀ n, evalFlatF n [] = none := by
  intro n
  cases n <;> simp [evalFlatF]

/-- Fuel irrelevance: any fuel at least the string's length gives the same
result, so `evalFlatF s.length s` is the evaluator's true value. -/
theorem evalFlatF_congr : ∀ (n : Nat) (s : List Char) (m : Nat),
    s.length ≤ n → s.length ≤ m → evalFlatF n s = evalFlatF m s := by
  intro n
  induction n with
  | zero =>
    intro s m hn _
    have : s = [] := List.length_eq_zero.mp (Nat.le_zero.mp hn)
    subst this
    rw [evalFlatF_nil, evalFlatF_nil]
  | succ n ih =>
    intro s m hn hm
    cases s with
    | nil => rw [evalFlatF_nil, evalFlatF_nil]
    | cons a t =>
      have hlen : 0 < (a :: t).length := by simp
      cases m with
      | zero => omega
      | succ m =>
        show evalFlatF (n + 1) (a :: t) = evalFlatF (m + 1) (a :: t)
        simp only [evalFlatF, List.isEmpty_cons, Bool.false_eq_true, if_false]
        rcases hadd : addSplitPos (a :: t) with _ | ⟨op, p⟩
        · rcases hmul : mulSplitPos (a :: t) with _ | ⟨op, p⟩
          · rfl
          · have hb := mulSplitPos_bounds hmul
            have h1 : ((a :: t).take p).length ≤ n := by
              simp only [List.length_take]
              omega
            have h2 : ((a :: t).drop (p + 1)).length ≤ n := by
              simp only [List.length_drop]
              omega
            have h3 : ((a :: t).take p).length ≤ m := by
              simp only [List.length_take]
              omega
            have h4 : ((a :: t).drop (p + 1)).length ≤ m := by
              simp only [List.length_drop]
              omega
            dsimp only
            rw [ih _ _ h1 h3, ih _ _ h2 h4]
        · have hb := addSplitPos_bounds hadd
          have h1 : ((a :: t).take p).length ≤ n := by
            simp only [List.length_take]
            omega
          have h2 : ((a :: t).drop (p + 1)).length ≤ n := by
            simp only [List.length_drop]
            omega
          have h3 : ((a :: t).take p).length ≤ m := by
            simp only [List.length_take]
            omega
          have h4 : ((a :: t).drop (p + 1)).length ≤ m := by
            simp only [List.length_drop]
            omega
          dsimp only
          rw [ih _ _ h1 h3, ih _ _ h2 h4]

/-- Models `str()` of the float spliced back in place of a parenthesized
group (`expression[:start] + str(sub_result) + expression[end + 1:]`).
Exact for values with a terminating decimal expansion of at most 20 digits
(Python's `str` is the shortest round-tripping decimal, which for such
floats is this exact expansion, integers rendered with a trailing `.0`). -/
def floatStr (v : PyNum) : List Char :=
  let a := v.num.natAbs
  let d := v.den.natAbs
  let k := ((List.range 21).find? (fun k => a * 10 ^ k % d = 0)).getD 20
  let m := a * 10 ^ k / d
  let sign : List Char := if v.num < 0 then ['-'] else []
  if k = 0 then sign ++ Nat.toDigits 10 m ++ ['.', '0']
  else sign ++ Nat.toDigits 10 (m / 10 ^ k) ++ '.' ::
    (List.replicate (k - (Nat.toDigits 10 (m % 10 ^ k)).length) '0' ++ Nat.toDigits 10 (m % 10 ^ k))

/-- Step 1 of `_safe_eval`: the `while "(" in expression` loop.  Each pass
takes the last `(`, the first `)` after it (failing if there is none),
evaluates the innermost group — which contains no `(` — and splices the
`str` of the result back.  One pass removes exactly one `(` and the splice
introduces none, so fuel `s.length + 1` always suffices. -/
def resolveParens : Nat → List Char → Option (List Char)
  | 0, s => if '(' ∈ s then none else some s
  | n + 1, s =>
    match rfindPos '(' s with
    | none => some s
    | some start =>
      match findIdxFrom ')' s (start + 1) with
      | none => none
      | some e =>
        let sub := (s.drop (start + 1)).take (e - (start + 1))
        match evalFlatF sub.length sub with
        | none => none
        | some v => resolveParens n (s.take start ++ floatStr v ++ s.drop (e + 1))

/-- `PriceParser._safe_eval`: remove spaces, fail on the empty expression,
resolve parentheses innermost-first, then evaluate by operator splitting. -/
def safeEval (s : List Char) : Option PyNum :=
  let t := s.filter (fun c => c ≠ ' ')
  if t.isEmpty then none
  else
    match resolveParens (t.length + 1) t with
    | none => none
    | some u => evalFlatF u.length u

/-- Characters admitted by `_evaluate_expression`'s filter `^[\d+\-*/.()]+$`. -/
def exprCharOk (c : Char) : Bool :=
  c.isDigit || c = '+' || c = '-' || c = '*' || c = '/' || c = '.' || c = '(' || c = ')'

/-- `PriceParser._evaluate_expression`: remove spaces, reject anything
outside `[\d+\-*/.()]` (the empty string included), evaluate with
`_safe_eval`, and commit the result to two fractional digits. -/
def evaluateExpression (s : List Char) : Option PyDecimal :=
  let t := s.filter (fun c => c ≠ ' ')
  if t.isEmpty then none
  else if t.all exprCharOk then
    match safeEval t with
    | some v => some (quantize2 v)
    | none => none
  else none

/-- Matches pattern 1's body `\s*([^=\n]+?)\s*=\s*(-?\d+(?:\.\d+)?)` right
after a keyword occurrence (`r` is the text that follows the keyword);
returns the two captured groups.  Python's backtracking order is
reproduced: the greedy leading `\s*` is tried longest-first, the non-greedy
expression group shortest-first; the number group is matched greedily. -/
def parseSignedNum (t : List Char) : Option (List Char) :=
  let p := match t with
    | '-' :: u => (['-'], u)
    | u => (([] : List Char), u)
  let d1 := p.2.takeWhile Char.isDigit
  if d1.isEmpty then none
  else
    match p.2.drop d1.length with
    | '.' :: u =>
      let d2 := u.takeWhile Char.isDigit
      if d2.isEmpty then some (p.1 ++ d1) else some (p.1 ++ d1 ++ '.' :: d2)
    | _ => some (p.1 ++ d1)

def p1AtBody (r : List Char) : Option (List Char × List Char) :=
  let maxw := (r.takeWhile isWs).length
  (List.range (maxw + 1)).findSome? fun i =>
    let r1 := r.drop (maxw - i)
    (List.range r1.length).findSome? fun e1 =>
      let expr := r1.take (e1 + 1)
      if expr.all (fun c => c ≠ '=' && c ≠ '\n') then
        match (r1.drop (e1 + 1)).dropWhile isWs with
        | '=' :: t2 => (parseSignedNum (t2.dropWhile isWs)).map (fun nm => (expr, nm))
        | _ => none
      else none

/-- Acceptance test for pattern 2's tail `(?:\s*$|\s*\n)` under
`re.MULTILINE`: after the expression group, some run of whitespace must
reach the end of the text or a newline. -/
def tailOk : List Char → Bool
  | [] => true
  | c :: rest => if c = '\n' then true else if isWs c then tailOk rest else false

/-- Matches pattern 2's body `\s*([^=\n]+?)(?:\s*$|\s*\n)` right after a
keyword occurrence; returns the captured expression group. -/
def p2AtBody (r : List Char) : Option (List Char) :=
  let maxw := (r.takeWhile isWs).length
  (List.range (maxw + 1)).findSome? fun i =>
    let r1 := r.drop (maxw - i)
    (List.range r1.length).findSome? fun e1 =>
      let expr := r1.take (e1 + 1)
      if expr.all (fun c => c ≠ '=' && c ≠ '\n') then
        if tailOk (r1.drop (e1 + 1)) then some expr else none
      else none

/-- Matches pattern 3's body `\s*(\d+(?:\.\d+)?)` right after a keyword
occurrence; returns the captured number group and the text after the match
end (the source inspects `text[match.end():match.end()+3]`). -/
def p3AtBody (r : List Char) : Option (List Char × List Char) :=
  let r1 := r.dropWhile isWs
  let d1 := r1.takeWhile Char.isDigit
  if d1.isEmpty then none
  else
    match r1.drop d1.length with
    | '.' :: u =>
      let d2 := u.takeWhile Char.isDigit
      if d2.isEmpty then some (d1, '.' :: u) else some (d1 ++ '.' :: d2, u.drop d2.length)
    | r2 => some (d1, r2)

/-- Python `re.search` for a pattern of the form `keyword<body>`: try every
start position left to right; a position matches when the keyword is a
prefix there and the body matcher accepts the remainder. -/
def searchAt (f : List Char → Option α) (kw : List Char) : List Char → Option α
  | [] => none
  | s@(_ :: rest) =>
    if kw.isPrefixOf s then
      match f (s.drop kw.length) with
      | some r => some r
      | none => searchAt f kw rest
    else searchAt f kw rest

/-- Models `decimal.Decimal(s)` on the strings the regex groups can
produce: an optional sign, then digits with at most one decimal point.
The exponent is minus the number of digits written after the point, which
is exactly how `Decimal` stores such literals. -/
def decParseCore (r : List Char) : Option PyDecimal :=
  let d1 := r.takeWhile Char.isDigit
  match r.drop d1.length with
  | [] => if d1.isEmpty then none else some ⟨natOfDigits d1, 0⟩
  | '.' :: u =>
    if u.all Char.isDigit && !(d1.isEmpty && u.isEmpty) then
      some ⟨natOfDigits (d1 ++ u), -(u.length : Int)⟩
    else none
  | _ => none

def decParse (s : List Char) : Option PyDecimal :=
  match s with
  | '-' :: r => (decParseCore r).map (fun d => ⟨-d.mant, d.exp⟩)
  | '+' :: r => decParseCore r
  | r => decParseCore r

/-- `PriceParseResult` from `app/models/schemas.py`. -/
structure PriceParseResult where
  success : Bool
  amount : Option PyDecimal
  expression : Option (List Char)
  error : Option (List Char)
deriving DecidableEq, Repr

/-- Which of the three patterns produced a successful parse (tracked
alongside the result to make the provenance of each success statable; it is
discarded by `parse`). -/
inductive PatKind
  | stated
  | expr
  | bare
deriving DecidableEq, Repr

def emptyTextErr : List Char := "文本为空".data

def notFoundErr : List Char := "未找到价格信息".data

def PRICE_KEYWORDS : List (List Char) :=
  ["总".data, "合计".data, "总价".data, "总计".data, "金额".data]

/-- The `text.replace("×", "*").replace("x", "*")` normalization of `parse`. -/
def normalizeText (s : List Char) : List Char :=
  s.map fun c => if c = '×' || c = 'x' then '*' else c

/-- Does the expression contain an operator
(`any(op in expression for op in ["+", "-", "*", "/"])`)? -/
def hasOp (e : List Char) : Bool :=
  e.any fun c => c = '+' || c = '-' || c = '*' || c = '/'

/-- The `text[match_end:match_end + 3].strip()` lookahead of pattern 3:
skip when a nearby following character is an operator. -/
def opLookahead (rest : List Char) : Bool :=
  match listStrip (rest.take 3) with
  | c :: _ => c = '+' || c = '-' || c = '*' || c = '/' || c = 'x' || c = '×'
  | [] => false

/-- Pattern 3 of one keyword iteration: `none` means `continue` to the next
keyword. -/
def tryKeyword3 (kw text : List Char) : Option (PriceParseResult × PatKind) :=
  match searchAt p3AtBody kw text with
  | some (g, rest) =>
    if opLookahead rest then none
    else
      match decParse g with
      | some d => some (⟨true, some d, none, none⟩, PatKind.bare)
      | none => none
  | none => none

/-- Patterns 2 then 3 of one keyword iteration.  A negative evaluated
amount hits the source's `continue`, abandoning the keyword (pattern 3 is
not tried for it); an evaluation failure falls through to pattern 3. -/
def tryKeyword23 (kw text : List Char) : Option (PriceParseResult × PatKind) :=
  match searchAt p2AtBody kw text with
  | some g =>
    let e := listStrip g
    if hasOp e then
      match evaluateExpression e with
      | some d => if d.mant < 0 then none else some (⟨true, some d, some e, none⟩, PatKind.expr)
      | none => tryKeyword3 kw text
    else tryKeyword3 kw text
  | none => tryKeyword3 kw text

/-- One iteration of `parse`'s keyword loop.  Pattern 1 evaluates the
expression (`calculated_result`) but ignores the outcome; the number stated
after `=` is authoritative.  A negative stated number hits `continue`;
a stated number that `Decimal` rejects falls through to pattern 2 (the
source's `except ...: pass` — unreachable for this regex group's shape,
kept for faithfulness). -/
def tryKeyword (kw text : List Char) : Option (PriceParseResult × PatKind) :=
  match searchAt p1AtBody kw text with
  | some (g1, g2) =>
    let e := listStrip g1
    let _calc := evaluateExpression e
    match decParse g2 with
    | some d => if d.mant < 0 then none else some (⟨true, some d, some e, none⟩, PatKind.stated)
    | none => tryKeyword23 kw text
  | none => tryKeyword23 kw text

def parseLoop : List (List Char) → List Char → PriceParseResult × Option PatKind
  | [], _ => (⟨false, none, none, some notFoundErr⟩, none)
  | kw :: rest, text =>
    match tryKeyword kw text with
    | some (r, tag) => (r, some tag)
    | none => parseLoop rest text

/-- `PriceParser.parse`, with the pattern provenance of a success attached
as a second component (forgotten by `parse` below). -/
def parseTagged (text : List Char) : PriceParseResult × Option PatKind :=
  if text.isEmpty then (⟨false, none, none, some emptyTextErr⟩, none)
  else parseLoop PRICE_KEYWORDS (normalizeText text)

/-- `PriceParser.parse` from `app/services/price_parser.py`. -/
def parse (text : List Char) : PriceParseResult :=
  (parseTagged text).1

/-!
`RateLimiter` from `app/utils/concurrency.py`.  The source keeps one deque
of timestamps per key in a `defaultdict`; distinct keys never interact, so
one key's history (oldest first) is modelled.  `time.time()` values are
modelled as exact integers — the limiter only subtracts and compares them.
The `async with self.lock` makes each call atomic, so a sequential
history of calls is the faithful picture.
-/

/-- The `while requests and requests[0] < now - self.time_window:
requests.popleft()` pruning loop: drop leading timestamps strictly older
than `now - window`, stopping at the first recent one. -/
def pruneOld (window now : Int) : List Int → List Int
  | [] => []
  | t :: rest => if t < now - window then pruneOld window now rest else t :: rest

/-- `RateLimiter.is_allowed` for one key: prune, deny without recording
when the remaining count reaches `max_requests`, otherwise record `now`. -/
def isAllowed (maxRequests : Nat) (window : Int) (reqs : List Int) (now : Int) :
    Bool × List Int :=
  let r := pruneOld window now reqs
  if maxRequests ≤ r.length then (false, r)
  else (true, r ++ [now])

/-!
`MessageQueue` from `app/utils/concurrency.py`.  The buffer is an
`asyncio.Queue` (FIFO; `full()` is `maxsize > 0 and qsize() >= maxsize`).
A worker iteration (`_worker`: `get`, run the handler, increment
`processed_count` only when the handler did not raise) and a `put` are each
modelled as one atomic step, matching the claims' sequential histories.
-/

structure MessageQueue (α : Type) where
  maxSize : Nat
  queue : List α
  processedCount : Nat
  droppedCount : Nat
deriving DecidableEq, Repr

/-- `MessageQueue.put`: when the queue is full, count a drop and evict the
oldest item (`get_nowait`), then enqueue the new item. -/
def MessageQueue.put (q : MessageQueue α) (item : α) : MessageQueue α :=
  if 0 < q.maxSize ∧ q.maxSize ≤ q.queue.length then
    ⟨q.maxSize, q.queue.tail ++ [item], q.processedCount, q.droppedCount + 1⟩
  else
    ⟨q.maxSize, q.queue ++ [item], q.processedCount, q.droppedCount⟩

/-- One `_worker` loop iteration: on an empty queue the `wait_for` times
out and nothing changes; otherwise the oldest item is taken and handled,
counted as processed only when the handler succeeds (`ok`) — a raising
handler is logged and not counted. -/
def MessageQueue.workStep (q : MessageQueue α) (ok : Bool) : MessageQueue α :=
  match q.queue with
  | [] => q
  | _ :: rest =>
    if ok then ⟨q.maxSize, rest, q.processedCount + 1, q.droppedCount⟩
    else ⟨q.maxSize, rest, q.processedCount, q.droppedCount⟩

/-- An event in a sequential history of the queue: a producer `put` or one
worker iteration whose handler succeeds or fails. -/
inductive QOp (α : Type)
  | put (x : α)
  | work (ok : Bool)
deriving DecidableEq, Repr

def stepQ (q : MessageQueue α) : QOp α → MessageQueue α
  | QOp.put x => q.put x
  | QOp.work ok => q.workStep ok

def runOps (q : MessageQueue α) (ops : List (QOp α)) : MessageQueue α :=
  ops.foldl stepQ q

/-- Number of items ever passed to `put` in a history. -/
def countPuts (ops : List (QOp α)) : Nat :=
  ops.countP fun o => match o with
    | QOp.put _ => true
    | QOp.work _ => false

/-- The split point the spec's words describe for `_safe_eval` step 3
("the last occurrence of a `+`/`-`", scanning right to left, excluding a
leading sign at position 0): the rightmost position above 0 holding `+`
or `-`.  Written from the spec to compare against the source's evaluator,
which looks for the last `+` before considering any `-` at all. -/
def specRightmostAddPos (s : List Char) : Option Nat :=
  match rfindPos '+' s, rfindPos '-' s with
  | some p, some q =>
    if p < q then (if 0 < q then some q else none)
    else (if 0 < p then some p else none)
  | some p, none => if 0 < p then some p else none
  | none, some q => if 0 < q then some q else none
  | none, none => none

/-- Evaluation as the spec's words describe it: split once at the
rightmost additive operator and evaluate the halves with the source's
evaluator. -/
def specSplitEval (s : List Char) : Option PyNum :=
  match specRightmostAddPos s with
  | some p => binCombine (s.getD p ' ') (safeEval (s.take p)) (safeEval (s.drop (p + 1)))
  | none => safeEval s

theorem filter_space_eq {s : List Char} (h : ' ' ∉ s) :
    s.filter (fun c => c ≠ ' ') = s := by
  induction s with
  | nil => rfl
  | cons a t ih =>
    simp only [List.mem_cons, not_or] at h
    rw [List.filter_cons, if_pos (decide_eq_true (Ne.symm h.1)), ih h.2]

theorem rfindPos_eq_none {c : Char} {s : List Char} (h : c ∉ s) : rfindPos c s = none := by
  induction s with
  | nil => rfl
  | cons a t ih =>
    simp only [List.mem_cons, not_or] at h
    simp [rfindPos, ih h.2, Ne.symm h.1]

theorem resolveParens_no_paren {s : List Char} (h : '(' ∉ s) :
    ∀ f, resolveParens f s = some s := by
  intro f
  cases f with
  | zero => simp [resolveParens, h]
  | succ n => simp [resolveParens, rfindPos_eq_none h]

theorem safeEval_eq_evalFlatF {s : List Char} (hp : '(' ∉ s) (hs : ' ' ∉ s) :
    safeEval s = evalFlatF s.length s := by
  cases s with
  | nil => simp [safeEval, evalFlatF_nil]
  | cons a t =>
    simp only [safeEval, filter_space_eq hs, resolveParens_no_paren hp, List.isEmpty_cons,
      Bool.false_eq_true, if_false]

theorem addSplitPos_plus {s : List Char} {p : Nat}
    (h : rfindPos '+' s = some p) (hp : 0 < p) : addSplitPos s = some ('+', p) := by
  unfold addSplitPos
  rw [h]
  simp [hp]

theorem addSplitPos_minus {s : List Char} {q : Nat}
    (h0 : ∀ p, rfindPos '+' s = some p → p = 0)
    (h : rfindPos '-' s = some q) (hq : 0 < q) : addSplitPos s = some ('-', q) := by
  unfold addSplitPos addSplitMinus
  rcases hplus : rfindPos '+' s with _ | p
  · rw [h]
    simp [hq]
  · have := h0 p hplus
    subst this
    simp only [Nat.lt_irrefl, if_false]
    rw [h]
    simp [hq]

/-- The evaluator on a space-free, parenthesis-free string whose
additive-split search succeeds splits there and recurses on the halves. -/
theorem safeEval_addSplit {s : List Char} {op : Char} {p : Nat}
    (hp : '(' ∉ s) (hs : ' ' ∉ s) (h : addSplitPos s = some (op, p)) :
    safeEval s = binCombine op (safeEval (s.take p)) (safeEval (s.drop (p + 1))) := by
  have hb := addSplitPos_bounds h
  have hpt : '(' ∉ s.take p := fun hc => hp (List.take_subset _ _ hc)
  have hst : ' ' ∉ s.take p := fun hc => hs (List.take_subset _ _ hc)
  have hpd : '(' ∉ s.drop (p + 1) := fun hc => hp (List.drop_subset _ _ hc)
  have hsd : ' ' ∉ s.drop (p + 1) := fun hc => hs (List.drop_subset _ _ hc)
  rw [safeEval_eq_evalFlatF hp hs, safeEval_eq_evalFlatF hpt hst, safeEval_eq_evalFlatF hpd hsd]
  cases s with
  | nil => simp at hb
  | cons a t =>
    show evalFlatF (t.length + 1) (a :: t) = _
    simp only [evalFlatF, List.isEmpty_cons, Bool.false_eq_true, if_false, h]
    have hb2 := hb
    simp only [List.length_cons] at hb2
    rw [evalFlatF_congr t.length ((a :: t).take p) ((a :: t).take p).length
        (by simp only [List.length_take, List.length_cons]; omega) (le_refl _),
      evalFlatF_congr t.length ((a :: t).drop (p + 1)) ((a :: t).drop (p + 1)).length
        (by simp only [List.length_drop, List.length_cons]; omega) (le_refl _)]

theorem val_nonneg_iff (d : PyDecimal) : 0 ≤ d.val ↔ 0 ≤ d.mant := by
  have hpow : (0 : ℚ) < 10 ^ d.exp := by positivity
  rw [PyDecimal.val, mul_nonneg_iff_of_pos_right hpow, Int.cast_nonneg]

/-- C1, counterexample.  The claim describes the evaluator as "splitting at
the rightmost additive operator".  On `"1+-2"` the rightmost additive
operator is the `-` at index 2 (not a leading sign), and splitting there
fails (the left half `"1+"` does not evaluate); the source's evaluator
instead splits at the last `+` and returns `-1.0`.  So the evaluator's
result differs from the rightmost-additive-operator split. -/
theorem C1_counterexample :
    safeEval "1+-2".data = some ⟨-1, 1⟩
    ∧ specRightmostAddPos "1+-2".data = some 2
    ∧ specSplitEval "1+-2".data = none := by
  decide

/-- C1, amended: `parse "总2+3*4"` succeeds with amount 14.00 (value
`1400 * 10 ^ (-2)`), and on a parenthesis-free (and space-free) expression
the evaluator splits — before considering any multiplicative operator — at
the LAST `+` occurring after position 0 if there is one, and otherwise at
the last `-` occurring after position 0; chains of additions and
subtractions therefore evaluate left-associatively. -/
theorem C1_amended :
    parse "总2+3*4".data = ⟨true, some ⟨1400, -2⟩, some "2+3*4".data, none⟩
    ∧ (∀ s p, '(' ∉ s → ' ' ∉ s → rfindPos '+' s = some p → 0 < p →
        safeEval s = binCombine '+' (safeEval (s.take p)) (safeEval (s.drop (p + 1))))
    ∧ (∀ s q, '(' ∉ s → ' ' ∉ s → (∀ p, rfindPos '+' s = some p → p = 0) →
        rfindPos '-' s = some q → 0 < q →
        safeEval s = binCombine '-' (safeEval (s.take q)) (safeEval (s.drop (q + 1)))) := by
  refine ⟨by decide, ?_, ?_⟩
  · intro s p hpar hsp h hp
    exact safeEval_addSplit hpar hsp (addSplitPos_plus h hp)
  · intro s q hpar hsp h0 h hq
    exact safeEval_addSplit hpar hsp (addSplitPos_minus h0 h hq)

/-- C1, witness: the general split statement of `C1_amended` applied to
the concrete expression `"2+3*4"` at its `+` (index 1). -/
theorem C1_amended_witness :
    safeEval "2+3*4".data
      = binCombine '+' (safeEval ("2+3*4".data.take 1)) (safeEval ("2+3*4".data.drop 2)) :=
  C1_amended.2.1 "2+3*4".data 1 (by decide) (by decide) (by decide) (by decide)

/-- C2: `parse "总60*2+60+6=186"` succeeds with amount `Decimal("186")`
(value 186 = 186.00) and expression `"60*2+60+6"`; and in general, whenever
pattern 1 matches for the first keyword `总` and the number stated after
`=` parses to a non-negative decimal, `parse` succeeds with exactly that
stated decimal — the conclusion places no constraint on what the
expression before `=` evaluates to, so success does not depend on the
stated and computed values agreeing. -/
theorem C2_stated_result :
    (parse "总60*2+60+6=186".data = ⟨true, some ⟨186, 0⟩, some "60*2+60+6".data, none⟩
      ∧ PyDecimal.val ⟨186, 0⟩ = 186)
    ∧ ∀ t g1 g2 d, t.isEmpty = false →
        searchAt p1AtBody "总".data (normalizeText t) = some (g1, g2) →
        decParse g2 = some d → 0 ≤ d.mant →
        parse t = ⟨true, some d, some (listStrip g1), none⟩ := by
  constructor
  · constructor
    · decide
    · simp [PyDecimal.val]
  · intro t g1 g2 d hne hsearch hdec hnn
    have hneg : ¬ d.mant < 0 := by omega
    simp [parse, parseTagged, hne, PRICE_KEYWORDS, parseLoop, tryKeyword, hsearch, hdec, hneg]

/-- C2, witness: the general statement applied to `"总1+1=3"`, where the
stated number 3 disagrees with the computed value 2 and is still returned. -/
theorem C2_stated_result_witness :
    parse "总1+1=3".data = ⟨true, some ⟨3, 0⟩, some (listStrip "1+1".data), none⟩ :=
  C2_stated_result.2 "总1+1=3".data "1+1".data "3".data ⟨3, 0⟩
    (by decide) (by decide) (by decide) (by decide)

theorem evaluateExpression_exp {s : List Char} {d : PyDecimal}
    (h : evaluateExpression s = some d) : d.exp = -2 := by
  simp only [evaluateExpression] at h
  split at h
  · exact absurd h (by simp)
  · split at h
    · split at h
      · simp only [Option.some.injEq] at h
        rw [← h]
        rfl
      · exact absurd h (by simp)
    · exact absurd h (by simp)

theorem searchAt_imp {α : Type} {f : List Char → Option α} {kw : List Char} :
    ∀ {t : List Char} {r : α}, searchAt f kw t = some r → ∃ s, f s = some r := by
  intro t
  induction t with
  | nil => intro r h; simp [searchAt] at h
  | cons a t2 ih =>
    intro r h
    simp only [searchAt] at h
    by_cases hpre : kw.isPrefixOf (a :: t2)
    · rw [if_pos hpre] at h
      rcases hf : f ((a :: t2).drop kw.length) with _ | r0
      · rw [hf] at h
        exact ih h
      · rw [hf] at h
        simp only [Option.some.injEq] at h
        exact ⟨_, h ▸ hf⟩
    · rw [if_neg hpre] at h
      exact ih h

theorem takeWhile_head {p : Char → Bool} {l : List Char} {c : Char} {rest : List Char}
    (h : l.takeWhile p = c :: rest) : p c = true := by
  cases l with
  | nil => simp [List.takeWhile] at h
  | cons a t =>
    rw [List.takeWhile_cons] at h
    by_cases hp : p a
    · rw [if_pos hp] at h
      cases h
      exact hp
    · rw [if_neg hp] at h
      cases h

theorem decParseCore_nonneg {r : List Char} {d : PyDecimal}
    (h : decParseCore r = some d) : 0 ≤ d.mant := by
  simp only [decParseCore] at h
  split at h
  · split at h
    · exact absurd h (by simp)
    · simp only [Option.some.injEq] at h
      rw [← h]
      exact Int.ofNat_nonneg _
  · split at h
    · simp only [Option.some.injEq] at h
      rw [← h]
      exact Int.ofNat_nonneg _
    · exact absurd h (by simp)
  · exact absurd h (by simp)

theorem decParse_eq_core {c : Char} {g2 : List Char} (h1 : c ≠ '-') (h2 : c ≠ '+') :
    decParse (c :: g2) = decParseCore (c :: g2) := by
  simp [decParse, h1, h2]

/-- Pattern 3's number group starts with a digit (it is built from
`takeWhile Char.isDigit` runs). -/
theorem p3_group_head {r g rest : List Char} (h : p3AtBody r = some (g, rest)) :
    ∃ c g2, g = c :: g2 ∧ c.isDigit = true := by
  simp only [p3AtBody] at h
  rcases hd1 : (r.dropWhile isWs).takeWhile Char.isDigit with _ | ⟨c, cs⟩
  · rw [hd1] at h
    simp at h
  · rw [hd1] at h
    have hc : c.isDigit = true := takeWhile_head hd1
    simp only [List.isEmpty_cons, Bool.false_eq_true, if_false] at h
    split at h
    · split at h
      · simp only [Option.some.injEq, Prod.mk.injEq] at h
        exact ⟨c, cs, h.1.symm, hc⟩
      · simp only [Option.some.injEq, Prod.mk.injEq] at h
        exact ⟨c, _, h.1.symm, hc⟩
    · simp only [Option.some.injEq, Prod.mk.injEq] at h
      exact ⟨c, cs, h.1.symm, hc⟩

theorem p3_decParse_nonneg {r g rest : List Char} {d : PyDecimal}
    (h : p3AtBody r = some (g, rest)) (hd : decParse g = some d) : 0 ≤ d.mant := by
  obtain ⟨c, g2, hg, hc⟩ := p3_group_head h
  subst hg
  have hne : c ≠ '-' ∧ c ≠ '+' := by
    constructor <;> intro he <;> subst he <;> exact absurd hc (by decide)
  rw [decParse_eq_core hne.1 hne.2] at hd
  exact decParseCore_nonneg hd

theorem tryKeyword3_ok {kw t : List Char} {r : PriceParseResult} {tag : PatKind}
    (h : tryKeyword3 kw t = some (r, tag)) :
    r.success = true ∧ (∃ d, r.amount = some d ∧ 0 ≤ d.mant) ∧ r.expression = none
    ∧ tag = PatKind.bare := by
  rcases hs : searchAt p3AtBody kw t with _ | ⟨g, rest⟩
  · simp only [tryKeyword3, hs] at h
    exact absurd h (by simp)
  · simp only [tryKeyword3, hs] at h
    split at h
    · exact absurd h (by simp)
    · rcases hdp : decParse g with _ | d
      · simp only [hdp] at h
        exact absurd h (by simp)
      · simp only [hdp, Option.some.injEq, Prod.mk.injEq] at h
        obtain ⟨s0, hs0⟩ := searchAt_imp hs
        have hnn := p3_decParse_nonneg hs0 hdp
        rw [← h.1, ← h.2]
        exact ⟨rfl, ⟨d, rfl, hnn⟩, rfl, rfl⟩

theorem tryKeyword23_ok {kw t : List Char} {r : PriceParseResult} {tag : PatKind}
    (h : tryKeyword23 kw t = some (r, tag)) :
    r.success = true ∧ (∃ d, r.amount = some d ∧ 0 ≤ d.mant)
    ∧ (r.expression.isSome = true → tag = PatKind.expr)
    ∧ (tag = PatKind.expr → ∃ d, r.amount = some d ∧ d.exp = -2) := by
  rcases hs : searchAt p2AtBody kw t with _ | g
  · simp only [tryKeyword23, hs] at h
    obtain ⟨h1, h2, h3, h4⟩ := tryKeyword3_ok h
    refine ⟨h1, h2, fun hex => absurd hex (by rw [h3]; simp), fun he => absurd (h4 ▸ he) (by simp)⟩
  · simp only [tryKeyword23, hs] at h
    split at h
    · rcases hev : evaluateExpression (listStrip g) with _ | d
      · simp only [hev] at h
        obtain ⟨h1, h2, h3, h4⟩ := tryKeyword3_ok h
        refine ⟨h1, h2, fun hex => absurd hex (by rw [h3]; simp),
          fun he => absurd (h4 ▸ he) (by simp)⟩
      · simp only [hev] at h
        split at h
        · exact absurd h (by simp)
        · simp only [Option.some.injEq, Prod.mk.injEq] at h
          rw [← h.1, ← h.2]
          refine ⟨rfl, ⟨d, rfl, by omega⟩, fun _ => rfl,
            fun _ => ⟨d, rfl, evaluateExpression_exp hev⟩⟩
    · obtain ⟨h1, h2, h3, h4⟩ := tryKeyword3_ok h
      refine ⟨h1, h2, fun hex => absurd hex (by rw [h3]; simp),
        fun he => absurd (h4 ▸ he) (by simp)⟩

theorem tryKeyword_ok {kw t : List Char} {r : PriceParseResult} {tag : PatKind}
    (h : tryKeyword kw t = some (r, tag)) :
    r.success = true ∧ (∃ d, r.amount = some d ∧ 0 ≤ d.mant)
    ∧ (r.expression.isSome = true → tag = PatKind.stated ∨ tag = PatKind.expr)
    ∧ (tag = PatKind.expr → ∃ d, r.amount = some d ∧ d.exp = -2) := by
  rcases hs : searchAt p1AtBody kw t with _ | ⟨g1, g2⟩
  · simp only [tryKeyword, hs] at h
    obtain ⟨h1, h2, h3, h4⟩ := tryKeyword23_ok h
    exact ⟨h1, h2, fun hex => Or.inr (h3 hex), h4⟩
  · simp only [tryKeyword, hs] at h
    rcases hdp : decParse g2 with _ | d
    · simp only [hdp] at h
      obtain ⟨h1, h2, h3, h4⟩ := tryKeyword23_ok h
      exact ⟨h1, h2, fun hex => Or.inr (h3 hex), h4⟩
    · simp only [hdp] at h
      split at h
      · exact absurd h (by simp)
      · simp only [Option.some.injEq, Prod.mk.injEq] at h
        rw [← h.1, ← h.2]
        exact ⟨rfl, ⟨d, rfl, by omega⟩, fun _ => Or.inl rfl, fun he => absurd he (by simp)⟩

theorem parseLoop_ok : ∀ (kws : List (List Char)) (t : List Char)
    (r : PriceParseResult) (otag : Option PatKind), parseLoop kws t = (r, otag) →
    (r = ⟨false, none, none, some notFoundErr⟩ ∧ otag = none)
    ∨ ∃ kw tag, otag = some tag ∧ tryKeyword kw t = some (r, tag) := by
  intro kws
  induction kws with
  | nil =>
    intro t r otag h
    simp only [parseLoop, Prod.mk.injEq] at h
    exact Or.inl ⟨h.1.symm, h.2.symm⟩
  | cons kw rest ih =>
    intro t r otag h
    simp only [parseLoop] at h
    rcases htk : tryKeyword kw t with _ | ⟨r0, tag0⟩
    · rw [htk] at h
      exact ih t r otag h
    · rw [htk] at h
      simp only [Prod.mk.injEq] at h
      exact Or.inr ⟨kw, tag0, h.2.symm, by rw [← h.1]; exact htk⟩

/-- C3, counterexample.  The claim says every success reached through an
arithmetic-expression form — the stated-result form with `=` included —
carries an amount with exactly two fractional digits.  But pattern 1
returns `Decimal(stated_result)` without quantizing: `parse "总1+1=2"`
succeeds via the stated-result form with amount `Decimal("2")`, whose
exponent is 0, i.e. zero fractional digits, not two. -/
theorem C3_counterexample :
    parse "总1+1=2".data = ⟨true, some ⟨2, 0⟩, some "1+1".data, none⟩
    ∧ (PyDecimal.mk 2 0).exp ≠ -2 := by
  decide

/-- C3, amended: every success produced by the bare-expression form
(pattern 2) carries an amount with exactly two fractional digits
(exponent -2), e.g. `parse "总10.5+2"` returns 12.50; a stated-result
(pattern 1) success instead keeps the scale the stated literal was written
with. -/
theorem C3_amended :
    (∀ t r, parseTagged t = (r, some PatKind.expr) →
      ∃ d, r.amount = some d ∧ d.exp = -2)
    ∧ parse "总10.5+2".data = ⟨true, some ⟨1250, -2⟩, some "10.5+2".data, none⟩
    ∧ PyDecimal.val ⟨1250, -2⟩ = 25 / 2 := by
  refine ⟨?_, by decide, by rw [PyDecimal.val]; norm_num⟩
  intro t r h
  rw [parseTagged] at h
  split at h
  · simp at h
  · rcases parseLoop_ok _ _ _ _ h with ⟨_, htag⟩ | ⟨kw, tag, htag, htk⟩
    · exact absurd htag (by simp)
    · simp only [Option.some.injEq] at htag
      exact (tryKeyword_ok htk).2.2.2 htag.symm

/-- C3, witness: the amended pattern-2 statement applied to `"总10.5+2"`. -/
theorem C3_amended_witness :
    ∃ d, (PriceParseResult.mk true (some ⟨1250, -2⟩) (some "10.5+2".data) none).amount = some d
      ∧ d.exp = -2 :=
  C3_amended.1 "总10.5+2".data ⟨true, some ⟨1250, -2⟩, some "10.5+2".data, none⟩ (by decide)

/-- C4, counterexample.  On `"总.5-1\n总30"` pattern 2 matches `".5-1"`
for the keyword `总` and it evaluates to the negative -0.50, while
pattern 3 for that same keyword would succeed with the bare number 30 on
the second line; yet `parse` fails — the source's `continue` on a negative
pattern-2 result abandons the keyword without trying pattern 3 (and no
later keyword occurs in the text). -/
theorem C4_counterexample :
    (searchAt p2AtBody "总".data (normalizeText "总.5-1\n总30".data)).map listStrip
      = some ".5-1".data
    ∧ evaluateExpression ".5-1".data = some ⟨-50, -2⟩
    ∧ tryKeyword3 "总".data (normalizeText "总.5-1\n总30".data)
      = some (⟨true, some ⟨30, 0⟩, none, none⟩, PatKind.bare)
    ∧ parse "总.5-1\n总30".data = ⟨false, none, none, some notFoundErr⟩ := by
  decide

/-- C4, amended: when pattern 2 matches but its expression fails to
evaluate, pattern 3 is still tried for the same keyword; when the
expression instead evaluates to a negative result, the keyword is
abandoned entirely — pattern 3 is not tried for it and the loop moves to
the next keyword. -/
theorem C4_amended :
    (∀ kw t g, searchAt p2AtBody kw t = some g → hasOp (listStrip g) = true →
      evaluateExpression (listStrip g) = none →
      tryKeyword23 kw t = tryKeyword3 kw t)
    ∧ (∀ kw t g d, searchAt p2AtBody kw t = some g → hasOp (listStrip g) = true →
      evaluateExpression (listStrip g) = some d → d.mant < 0 →
      tryKeyword23 kw t = none) := by
  constructor
  · intro kw t g hs hop hev
    simp [tryKeyword23, hs, hop, hev]
  · intro kw t g d hs hop hev hneg
    simp [tryKeyword23, hs, hop, hev, hneg]

/-- C4, witness: the evaluation-failure half of `C4_amended` applied to
`"总10/0"`, whose pattern-2 expression `"10/0"` fails to evaluate. -/
theorem C4_amended_witness :
    tryKeyword23 "总".data "总10/0".data = tryKeyword3 "总".data "总10/0".data :=
  C4_amended.1 "总".data "总10/0".data "10/0".data (by decide) (by decide) (by decide)

/-- C5: for every input, success is equivalent to a non-negative amount
being present, and an attached expression occurs only on results produced
by the stated-result (pattern 1) or bare-expression (pattern 2) forms —
never by the bare-number form or a failure. -/
theorem C5_invariant : ∀ t : List Char,
    ((parseTagged t).1.success = true
      ↔ ∃ d, (parseTagged t).1.amount = some d ∧ 0 ≤ d.val)
    ∧ ((parseTagged t).1.expression.isSome = true →
      (parseTagged t).2 = some PatKind.stated ∨ (parseTagged t).2 = some PatKind.expr) := by
  intro t
  rcases hpt : parseTagged t with ⟨r, otag⟩
  rw [parseTagged] at hpt
  split at hpt
  · simp only [Prod.mk.injEq] at hpt
    rw [← hpt.1, ← hpt.2]
    constructor
    · simp
    · simp
  · rcases parseLoop_ok _ _ _ _ hpt with ⟨hr, htag⟩ | ⟨kw, tag, htag, htk⟩
    · subst hr
      subst htag
      constructor
      · simp
      · simp
    · obtain ⟨h1, ⟨d, hd, hnn⟩, h3, _⟩ := tryKeyword_ok htk
      subst htag
      constructor
      · rw [h1]
        simp only [true_iff]
        exact ⟨d, hd, (val_nonneg_iff d).mpr hnn⟩
      · intro hex
        rcases h3 hex with h | h
        · exact Or.inl (by rw [h])
        · exact Or.inr (by rw [h])

/-- C5, witness: the expression-provenance implication applied to
`"总1+1=3"`, a stated-result success. -/
theorem C5_invariant_witness :
    (parseTagged "总1+1=3".data).2 = some PatKind.stated
    ∨ (parseTagged "总1+1=3".data).2 = some PatKind.expr :=
  (C5_invariant "总1+1=3".data).2 (by decide)

/-- C6: division by zero inside the evaluator yields the failure value
`none` rather than an escaping error (`safeEval "10/0" = none` — the
evaluator is a total function), the extractor treats it as a non-match and
`parse "总10/0"` returns a failure result; `parse "总-50"` likewise fails
because no pattern accepts a negative candidate. -/
theorem C6_error_containment :
    safeEval "10/0".data = none
    ∧ parse "总10/0".data = ⟨false, none, none, some notFoundErr⟩
    ∧ parse "总-50".data = ⟨false, none, none, some notFoundErr⟩ := by
  decide

/-- C10: the empty string — the only falsy `str` — yields a failure with
the dedicated empty-text error `文本为空`, distinct from the
`未找到价格信息` error used when keywords or candidates fail; amount and
expression are absent, and `parse` is a total function (no exception). -/
theorem C10_empty_input :
    parse "".data = ⟨false, none, none, some emptyTextErr⟩
    ∧ emptyTextErr ≠ notFoundErr := by
  decide

/-- C7: with `max_requests = 3` and `time_window = 60`, four calls for the
same key at non-decreasing times within one window are allowed, allowed,
allowed, denied; the denied call leaves the recorded history exactly as it
was (no timestamp recorded); and once the window has fully elapsed since
the recorded timestamps, a further call is allowed again. -/
theorem C7_rate_limiter (t1 t2 t3 t4 t5 : Int)
    (h12 : t1 ≤ t2) (h23 : t2 ≤ t3) (h34 : t3 ≤ t4)
    (hwin : t4 - 60 ≤ t1) (helapsed : t3 < t5 - 60) :
    isAllowed 3 60 [] t1 = (true, [t1])
    ∧ isAllowed 3 60 [t1] t2 = (true, [t1, t2])
    ∧ isAllowed 3 60 [t1, t2] t3 = (true, [t1, t2, t3])
    ∧ isAllowed 3 60 [t1, t2, t3] t4 = (false, [t1, t2, t3])
    ∧ isAllowed 3 60 [t1, t2, t3] t5 = (true, [t5]) := by
  have n1 : ¬ t1 < t2 - 60 := by omega
  have n2 : ¬ t1 < t3 - 60 := by omega
  have n3 : ¬ t1 < t4 - 60 := by omega
  have p1 : t1 < t5 - 60 := by omega
  have p2 : t2 < t5 - 60 := by omega
  have p3 : t3 < t5 - 60 := by omega
  refine ⟨?_, ?_, ?_, ?_, ?_⟩
  · simp [isAllowed, pruneOld]
  · simp [isAllowed, pruneOld, n1]
  · simp [isAllowed, pruneOld, n2]
  · simp [isAllowed, pruneOld, n3]
  · simp [isAllowed, pruneOld, p1, p2, p3]

/-- C7, witness: the rate-limiter scenario at times 0, 1, 2, 3 and 100. -/
theorem C7_rate_limiter_witness :
    isAllowed 3 60 ([] : List Int) 0 = (true, [0])
    ∧ isAllowed 3 60 [0] 1 = (true, [0, 1])
    ∧ isAllowed 3 60 [0, 1] 2 = (true, [0, 1, 2])
    ∧ isAllowed 3 60 [0, 1, 2] 3 = (false, [0, 1, 2])
    ∧ isAllowed 3 60 [0, 1, 2] 100 = (true, [100]) :=
  C7_rate_limiter 0 1 2 3 100 (by decide) (by decide) (by decide) (by decide) (by decide)

theorem put_counter_sum {α : Type} (q : MessageQueue α) (x : α) :
    (q.put x).processedCount + (q.put x).droppedCount + (q.put x).queue.length
      = q.processedCount + q.droppedCount + q.queue.length + 1 := by
  rw [MessageQueue.put]
  split
  · next hfull =>
    simp only [List.length_append, List.length_tail, List.length_cons, List.length_nil]
    omega
  · simp only [List.length_append, List.length_cons, List.length_nil]
    omega

theorem work_true_counter_sum {α : Type} (q : MessageQueue α) :
    (q.workStep true).processedCount + (q.workStep true).droppedCount
        + (q.workStep true).queue.length
      = q.processedCount + q.droppedCount + q.queue.length := by
  rw [MessageQueue.workStep]
  rcases hq : q.queue with _ | ⟨a, rest⟩
  · simp [hq]
  · simp [hq]
    omega

/-- C8, counterexample.  The claim allows the handler to fail on any item,
but a failed handler invocation is neither counted as processed nor as
dropped: after one `put` and one worker step whose handler fails, the
counters and queue size sum to 0 while one item was enqueued. -/
theorem C8_counterexample :
    runOps (⟨2, [], 0, 0⟩ : MessageQueue Nat) [QOp.put 1, QOp.work false]
        = ⟨2, [], 0, 0⟩
    ∧ countPuts ([QOp.put 1, QOp.work false] : List (QOp Nat)) = 1
    ∧ (runOps (⟨2, [], 0, 0⟩ : MessageQueue Nat) [QOp.put 1, QOp.work false]).processedCount
        + (runOps (⟨2, [], 0, 0⟩ : MessageQueue Nat) [QOp.put 1, QOp.work false]).droppedCount
        + (runOps (⟨2, [], 0, 0⟩ : MessageQueue Nat) [QOp.put 1, QOp.work false]).queue.length
      ≠ countPuts ([QOp.put 1, QOp.work false] : List (QOp Nat)) := by
  decide

/-- C8, amended: over any sequence of puts and worker steps in which every
handler invocation succeeds, `processed_count + dropped_count + current
queue size` grows by exactly the number of items ever passed to `put`
(so from a fresh queue it equals that total).  A failing handler invocation
that dequeued an item makes the sum fall short by one. -/
theorem C8_amended : ∀ (ops : List (QOp Nat)) (q : MessageQueue Nat),
    (∀ b, QOp.work b ∈ ops → b = true) →
    (runOps q ops).processedCount + (runOps q ops).droppedCount + (runOps q ops).queue.length
      = q.processedCount + q.droppedCount + q.queue.length + countPuts ops := by
  intro ops
  induction ops with
  | nil =>
    intro q hok
    simp [runOps, countPuts]
  | cons o rest ih =>
    intro q hok
    have hrest : ∀ b, QOp.work b ∈ rest → b = true := fun b hb => hok b (List.mem_cons_of_mem _ hb)
    have hstep : runOps q (o :: rest) = runOps (stepQ q o) rest := rfl
    rw [hstep, ih (stepQ q o) hrest]
    cases o with
    | put x =>
      have : countPuts (QOp.put x :: rest) = countPuts rest + 1 := by
        simp [countPuts, List.countP_cons]
      rw [this]
      have := put_counter_sum q x
      simp only [stepQ]
      omega
    | work b =>
      have hb : b = true := hok b (List.mem_cons_self _ _)
      subst hb
      have : countPuts (QOp.work true :: rest) = countPuts rest := by
        simp [countPuts, List.countP_cons]
      rw [this]
      have := work_true_counter_sum q
      simp only [stepQ]
      omega

/-- C8, witness: the amended invariant applied to a fresh queue of
capacity 2 with two puts and one successful worker step. -/
theorem C8_amended_witness :
    (runOps (⟨2, [], 0, 0⟩ : MessageQueue Nat) [QOp.put 1, QOp.put 2, QOp.work true]).processedCount
        + (runOps (⟨2, [], 0, 0⟩ : MessageQueue Nat)
            [QOp.put 1, QOp.put 2, QOp.work true]).droppedCount
        + (runOps (⟨2, [], 0, 0⟩ : MessageQueue Nat)
            [QOp.put 1, QOp.put 2, QOp.work true]).queue.length
      = (MessageQueue.mk 2 ([] : List Nat) 0 0).processedCount
        + (MessageQueue.mk 2 ([] : List Nat) 0 0).droppedCount
        + (MessageQueue.mk 2 ([] : List Nat) 0 0).queue.length
        + countPuts ([QOp.put 1, QOp.put 2, QOp.work true] : List (QOp Nat)) :=
  C8_amended [QOp.put 1, QOp.put 2, QOp.work true] ⟨2, [], 0, 0⟩ (by decide)

/-- C9: with capacity 2 and no workers draining, three consecutive puts
leave `dropped_count = 1` and the queue holding exactly the two most
recently enqueued items in FIFO order — the oldest item was evicted. -/
theorem C9_drop_oldest :
    runOps (⟨2, [], 0, 0⟩ : MessageQueue Nat) [QOp.put 1, QOp.put 2, QOp.put 3]
      = ⟨2, [2, 3], 0, 1⟩ := by
  decide

end TgbotLe
